import Mathlib

/-!
# Verification of the Clarity in-page highlight engine

Shallow embedding of the `SafeSearchHighlighter` class (text-matching and
highlighting engine) of the Clarity browser extension, together with proofs
of the specified properties.

Strings are modelled as `List Char` (JavaScript string indices are UTF-16
code units; for the texts involved the code-unit count equals the
code-point count, so `List.length` models `String.prototype.length`).
The DOM is modelled as a first-child / next-sibling forest, the standard
representation of the document tree; traversal order of that forest is
exactly `TreeWalker` document order.
-/

namespace Clarity

/-! ## String primitives (JavaScript string operations) -/

/-- Whitespace as matched by JavaScript `\s` and `String.prototype.trim`
(ASCII part; the texts involved contain no exotic Unicode spaces). -/
def isJsWs (c : Char) : Bool :=
  c = ' ' || c = '\t' || c = '\n' || c = '\r' || c = '\x0b' || c = '\x0c'

/-- `String.prototype.trim`: strip leading and trailing whitespace. -/
def jsTrim (l : List Char) : List Char :=
  ((l.dropWhile isJsWs).reverse.dropWhile isJsWs).reverse

/-- `String.prototype.toLowerCase` (ASCII case folding via `Char.toLower`). -/
def lcs (l : List Char) : List Char :=
  l.map Char.toLower

/-- Fuel-driven worker for `splitRuns`; fuel bounded below by the input
length makes the recursion structural so that terms reduce by `rfl`. -/
def splitRunsF (p : Char → Bool) : Nat → List Char → List (List Char)
  | 0, l => [l.takeWhile (fun c => !p c)]
  | fuel + 1, l =>
    let seg := l.takeWhile (fun c => !p c)
    match l.dropWhile (fun c => !p c) with
    | [] => [seg]
    | _ :: t => seg :: splitRunsF p fuel (t.dropWhile p)

/-- `String.prototype.split` on a regex `X+` (one or more characters
satisfying `p`): segments between maximal separator runs, with empty
segments at the boundaries, exactly as JavaScript produces them. -/
def splitRuns (p : Char → Bool) (l : List Char) : List (List Char) :=
  splitRunsF p l.length l

/-- Sentence-terminal punctuation of the regex `[.!?]+`. -/
def isSentencePunct (c : Char) : Bool :=
  c = '.' || c = '!' || c = '?'

/-- Characters of the class `['"…\.]` stripped from the tail of the text. -/
def isTrailStrip (c : Char) : Bool :=
  c = '\'' || c = '"' || c = '…' || c = '.'

/-- `Array.prototype.join(' ')`. -/
def joinSpace : List (List Char) → List Char
  | [] => []
  | [w] => w
  | w :: ws => w ++ ' ' :: joinSpace ws

/-! ## Candidate extraction (`extractSearchTargets`, part_000 lines 48-92) -/

/-- The normalisation prefix of `extractSearchTargets`: trim, extract the
text between a leading quote and its closing quote, strip trailing
quotes / ellipses / periods, trim again (part_000 lines 51-61). -/
def normalizeClaim (claimText : List Char) : List Char :=
  let c0 := jsTrim claimText
  let c1 :=
    if c0.head? = some '"' && ((c0.drop 1).contains '"') then
      (c0.drop 1).takeWhile (fun c => !(c = '"'))
    else c0
  jsTrim ((c1.reverse.dropWhile isTrailStrip).reverse)

/-- Batch 1: sentence segments (split on `[.!?]+`), kept trimmed when the
trimmed length exceeds 10, in left-to-right order (lines 63-72). -/
def sentenceCandidates (cleanText : List Char) : List (List Char) :=
  (((splitRuns isSentencePunct cleanText).filter
      (fun s => 10 < (jsTrim s).length)).map jsTrim).filter
    (fun t => 10 < t.length)

/-- Tokens: split on whitespace, keeping tokens of length > 2 (line 75). -/
def claimWords (cleanText : List Char) : List (List Char) :=
  (splitRuns isJsWs cleanText).filter (fun w => 2 < w.length)

/-- Batch 2: sliding windows of 5 consecutive tokens joined with single
spaces, kept when longer than 20 characters (lines 76-83). -/
def phraseCandidates (cleanText : List Char) : List (List Char) :=
  let words := claimWords cleanText
  if 5 ≤ words.length then
    ((List.range (words.length - 5 + 1)).map
        (fun i => joinSpace ((words.drop i).take 5))).filter
      (fun p => 20 < p.length)
  else []

/-- Batch 3: the last-resort candidate, the first 3 tokens of length > 4
joined with spaces, when at least 3 such tokens exist (lines 85-89). -/
def keywordCandidates (cleanText : List Char) : List (List Char) :=
  let significantWords := (claimWords cleanText).filter (fun w => 4 < w.length)
  if 3 ≤ significantWords.length then [joinSpace (significantWords.take 3)]
  else []

/-- `extractSearchTargets` (part_000 lines 48-92): the candidate list, built
by pushing batch 1, then batch 2, then batch 3 into `targets`. -/
def extractSearchTargets (claimText : List Char) : List (List Char) :=
  let cleanText := normalizeClaim claimText
  sentenceCandidates cleanText ++ phraseCandidates cleanText ++
    keywordCandidates cleanText

/-! ## Case-insensitive substring search -/

/-- Index of the first case-insensitive occurrence of `pat` in `text`
(`none` when absent). For nonempty `pat` this is the position at which a
global case-insensitive regex for the literal `pat` first matches. -/
def findOcc (pat : List Char) : List Char → Option Nat
  | [] => if pat = [] then some 0 else none
  | c :: t =>
    if (lcs pat).isPrefixOf (lcs (c :: t)) then some 0
    else (findOcc pat (c :: t).tail).map (· + 1)

/-- `lowerText.includes(lowerSearch)` (part_000 line 143): substring
containment, realised as existence of a first occurrence. -/
def containsCI (pat text : List Char) : Bool :=
  (findOcc pat text).isSome

/-- The JavaScript regex metacharacters escaped by `escapeRegExp`
(the class `[.*+?^${}()|[\]\\]`, part_000 line 255). -/
def isRegexMeta (c : Char) : Bool :=
  c = '.' || c = '*' || c = '+' || c = '?' || c = '^' || c = '$' ||
  c = '\x7b' || c = '\x7d' || c = '(' || c = ')' || c = '|' ||
  c = '[' || c = ']' || c = '\\'

/-- `escapeRegExp` (part_000 lines 254-256): prefix every regex
metacharacter with a backslash (`replace(/[.*+?^${}()|[\]\\]/g, '\\$&')`). -/
def escapeRegExp (s : List Char) : List Char :=
  s.flatMap (fun c => if isRegexMeta c then ['\\', c] else [c])

/-- Reading of an escaped pattern as a literal string: a backslash makes
the following character literal; an unescaped metacharacter would act as a
regex operator, so it has no literal reading (`none`). -/
def regexLiteral : List Char → Option (List Char)
  | [] => some []
  | c :: rest =>
    if c = '\\' then
      match rest with
      | [] => none
      | d :: rest2 => (regexLiteral rest2).map (d :: ·)
    else if isRegexMeta c then none
    else (regexLiteral rest).map (c :: ·)

/-- A piece of a text split at the pattern occurrences: `inl` is plain
text between matches, `inr` is a matched run (original casing). -/
abbrev Seg := List Char ⊕ List Char

/-- Fuel-driven worker for `splitOccur` (structural, so terms reduce). -/
def splitOccurF (pat : List Char) : Nat → List Char → List Seg
  | 0, text => [Sum.inl text]
  | fuel + 1, text =>
    match findOcc pat text with
    | none => [Sum.inl text]
    | some i =>
      Sum.inl (text.take i) :: Sum.inr ((text.drop i).take pat.length) ::
        splitOccurF pat fuel (text.drop (i + pat.length))

/-- Decomposition of `text` at the non-overlapping, leftmost-first,
case-insensitive occurrences of the literal pattern `pat`, as performed by
`text.replace(new RegExp(escaped, 'gi'), cb)` (part_000 lines 167-176):
matched runs keep their original casing. -/
def splitOccur (pat text : List Char) : List Seg :=
  if pat = [] then [Sum.inl text] else splitOccurF pat text.length text

/-! ## The document tree

First-child / next-sibling representation of the DOM forest: `nil` is the
empty forest, `text s next` a text node followed by its siblings,
`elem tag idAttr className dataVerdict dataId children next` an element
node followed by its siblings. -/

inductive DN where
  | nil : DN
  | text (s : List Char) (next : DN) : DN
  | elem (tag idAttr className : List Char) (dataVerdict : Option (List Char))
      (dataId : Option (List Char)) (children : DN) (next : DN) : DN
deriving DecidableEq, Repr

/-- `Node.textContent` of a forest: concatenation of all text runs in
document order. -/
def textContentN : DN → List Char
  | .nil => []
  | .text s next => s ++ textContentN next
  | .elem _ _ _ _ _ children next => textContentN children ++ textContentN next

/-- The `class` attribute substring selected by
`querySelectorAll('[class*="safesearch-highlight-"]')`. -/
def hlClassPrefix : List Char := "safesearch-highlight-".toList

/-- Substring test (`String.prototype.includes` on exact characters). -/
def isSubstring (pat : List Char) : List Char → Bool
  | [] => pat.isEmpty
  | c :: t => pat.isPrefixOf (c :: t) || isSubstring pat t

/-- Whether a `class` attribute value matches `[class*="safesearch-highlight-"]`. -/
def isHlClass (className : List Char) : Bool :=
  isSubstring hlClassPrefix className

/-- Whether the forest contains no highlight marker element (at any depth). -/
def noMarksN : DN → Bool
  | .nil => true
  | .text _ next => noMarksN next
  | .elem _ _ className _ _ children next =>
    !isHlClass className && noMarksN children && noMarksN next

/-- Fuel-driven decimal printer worker. -/
def natToStringF : Nat → Nat → List Char
  | 0, _ => []
  | fuel + 1, n =>
    if n < 10 then [Nat.digitChar n]
    else natToStringF fuel (n / 10) ++ [Nat.digitChar (n % 10)]

/-- Decimal rendering of a number, as JavaScript template interpolation
`${this.highlightCounter}` prints a non-negative integer. -/
def natToString (n : Nat) : List Char :=
  natToStringF (n + 1) n

/-- The marker element that the serialized
`<mark class="safesearch-highlight-VERDICT" data-verdict="VERDICT"
data-id="N">MATCH</mark>` (part_000 line 175) parses to when neither the
verdict nor the matched run contains markup-significant characters. -/
def mkMark (verdict : List Char) (id : Nat) (matched : List Char)
    (next : DN) : DN :=
  .elem "mark".toList [] (hlClassPrefix ++ verdict) (some verdict)
    (some (natToString id)) (.text matched .nil) next

/-- The session's record of one inserted marker node (an entry of
`this.highlightedElements` holds a reference to the parsed element): its
class attribute, its `data-verdict` and `data-id` attributes, and its
text content. -/
structure MarkerRef where
  className : List Char
  dataVerdict : Option (List Char)
  dataId : Option (List Char)
  content : List Char
deriving DecidableEq, Repr

/-! ## The serialized replacement string (`highlightedHTML`)

`highlightTextInNode` (part_000 lines 165-180) does not splice DOM nodes
directly: it builds the string `highlightedHTML` by interpolating the
node's raw text and the matched runs UNESCAPED around `<mark>` wrappers,
assigns it to `tempDiv.innerHTML`, and splices the re-parsed children.
The serializer below is the `text.replace(regex, cb)` call; the parser
further below models the browser's `innerHTML` fragment parse. -/

/-- The opening wrapper emitted by the `replace` callback (part_000 line
175): `<mark class="safesearch-highlight-${verdict}"
data-verdict="${verdict}" data-id="${counter}">`. -/
def markOpen (verdict : List Char) (id : Nat) : List Char :=
  "<mark class=\"safesearch-highlight-".toList ++ verdict ++
    "\" data-verdict=\"".toList ++ verdict ++
    "\" data-id=\"".toList ++ natToString id ++ "\">".toList

/-- The closing wrapper emitted by the `replace` callback. -/
def markClose : List Char := "</mark>".toList

/-- `text.replace(regex, cb)` (part_000 lines 172-176): plain pieces pass
through unescaped, each matched run is wrapped in `markOpen`/`markClose`
with the counter incremented left to right. Returns the built
`highlightedHTML` string and the advanced counter. -/
def buildPieces (verdict : List Char) (cnt : Nat) :
    List Seg → List Char × Nat
  | [] => ([], cnt)
  | Sum.inl s :: rest =>
    let (h, c) := buildPieces verdict cnt rest
    (s ++ h, c)
  | Sum.inr m :: rest =>
    let (h, c) := buildPieces verdict (cnt + 1) rest
    (markOpen verdict (cnt + 1) ++ m ++ markClose ++ h, c)

/-! ## The `innerHTML` fragment parse

Model of the browser's `tempDiv.innerHTML = s` parse (an external
collaborator of the engine), as an HTML5-style character-level tokenizer
state machine followed by a tree builder with an open-element stack. It
covers the constructs that can occur here: character data, the common
named character references (`amp`, `lt`, `gt`, `quot`, `apos`; others
stay literal), start tags with double-quoted or unquoted attribute
values, self-closing slashes, and end tags with implicit closing of
inner elements. Deliberate simplifications, all irrelevant to the
engine's own serialized markup and to the analysed inputs: no character
references inside attribute values, no single-quoted attribute values,
no comments or doctypes, and semicolon-less references stay literal. -/

/-- Tokens produced by the tokenizer. -/
inductive HTok where
  | chr (c : Char)
  | openTag (name : List Char) (attrs : List (List Char × List Char))
      (selfClose : Bool)
  | closeTag (name : List Char)
deriving DecidableEq, Repr

/-- Tokenizer states; buffers carry the tag name, the attributes
collected so far, and the attribute name/value in progress. -/
inductive TkMode where
  | data
  | charRef (buf : List Char)
  | tagOpen
  | endTagOpen
  | tagName (name : List Char)
  | endTagName (name : List Char)
  | beforeAttrName (name : List Char) (attrs : List (List Char × List Char))
  | attrName (name : List Char) (attrs : List (List Char × List Char))
      (an : List Char)
  | afterAttrName (name : List Char) (attrs : List (List Char × List Char))
      (an : List Char)
  | beforeAttrValue (name : List Char) (attrs : List (List Char × List Char))
      (an : List Char)
  | attrValueDQ (name : List Char) (attrs : List (List Char × List Char))
      (an av : List Char)
  | attrValueUnq (name : List Char) (attrs : List (List Char × List Char))
      (an av : List Char)
  | selfClosing (name : List Char) (attrs : List (List Char × List Char))
  | bogus
deriving DecidableEq, Repr

/-- The named character references the model decodes. -/
def decodeEntity (name : List Char) : Option Char :=
  if name = "amp".toList then some '&'
  else if name = "lt".toList then some '<'
  else if name = "gt".toList then some '>'
  else if name = "quot".toList then some '"'
  else if name = "apos".toList then some '\'' 
  else none

/-- One character in the data state: `<` opens a tag, `&` starts a
character reference, anything else is a character datum. -/
def dataStep : Char → TkMode × List HTok
  | '<' => (.tagOpen, [])
  | '&' => (.charRef [], [])
  | c => (.data, [.chr c])

/-- One transition of the tokenizer state machine. -/
def tkStep : TkMode → Char → TkMode × List HTok
  | .data, c => dataStep c
  | .charRef buf, c =>
    if c = ';' then
      match decodeEntity buf with
      | some d => (.data, [.chr d])
      | none => (.data, ('&' :: buf ++ [';']).map .chr)
    else if (c.isAlpha || c.isDigit) && buf.length < 10 then
      (.charRef (buf ++ [c]), [])
    else
      let r := dataStep c
      (r.1, ('&' :: buf).map .chr ++ r.2)
  | .tagOpen, c =>
    if c = '/' then (.endTagOpen, [])
    else if c.isAlpha then (.tagName [c.toLower], [])
    else
      let r := dataStep c
      (r.1, .chr '<' :: r.2)
  | .endTagOpen, c =>
    if c.isAlpha then (.endTagName [c.toLower], [])
    else if c = '>' then (.data, [])
    else (.bogus, [])
  | .bogus, c => if c = '>' then (.data, []) else (.bogus, [])
  | .tagName name, c =>
    if isJsWs c then (.beforeAttrName name [], [])
    else if c = '/' then (.selfClosing name [], [])
    else if c = '>' then (.data, [.openTag name [] false])
    else (.tagName (name ++ [c.toLower]), [])
  | .endTagName name, c =>
    if c = '>' then (.data, [.closeTag name])
    else if c.isAlpha || c.isDigit || c = '-' then
      (.endTagName (name ++ [c.toLower]), [])
    else (.endTagName name, [])
  | .beforeAttrName name attrs, c =>
    if isJsWs c then (.beforeAttrName name attrs, [])
    else if c = '/' then (.selfClosing name attrs, [])
    else if c = '>' then (.data, [.openTag name attrs false])
    else (.attrName name attrs [c.toLower], [])
  | .attrName name attrs an, c =>
    if c = '=' then (.beforeAttrValue name attrs an, [])
    else if isJsWs c then (.afterAttrName name attrs an, [])
    else if c = '/' then (.selfClosing name (attrs ++ [(an, [])]), [])
    else if c = '>' then (.data, [.openTag name (attrs ++ [(an, [])]) false])
    else (.attrName name attrs (an ++ [c.toLower]), [])
  | .afterAttrName name attrs an, c =>
    if isJsWs c then (.afterAttrName name attrs an, [])
    else if c = '=' then (.beforeAttrValue name attrs an, [])
    else if c = '/' then (.selfClosing name (attrs ++ [(an, [])]), [])
    else if c = '>' then (.data, [.openTag name (attrs ++ [(an, [])]) false])
    else (.attrName name (attrs ++ [(an, [])]) [c.toLower], [])
  | .beforeAttrValue name attrs an, c =>
    if isJsWs c then (.beforeAttrValue name attrs an, [])
    else if c = '"' then (.attrValueDQ name attrs an [], [])
    else if c = '>' then (.data, [.openTag name (attrs ++ [(an, [])]) false])
    else (.attrValueUnq name attrs an [c], [])
  | .attrValueDQ name attrs an av, c =>
    if c = '"' then (.beforeAttrName name (attrs ++ [(an, av)]), [])
    else (.attrValueDQ name attrs an (av ++ [c]), [])
  | .attrValueUnq name attrs an av, c =>
    if isJsWs c then (.beforeAttrName name (attrs ++ [(an, av)]), [])
    else if c = '>' then (.data, [.openTag name (attrs ++ [(an, av)]) false])
    else (.attrValueUnq name attrs an (av ++ [c]), [])
  | .selfClosing name attrs, c =>
    if c = '>' then (.data, [.openTag name attrs true])
    else if isJsWs c then (.selfClosing name attrs, [])
    else (.beforeAttrName name attrs, [])

/-- End of input: a pending character reference is emitted literally; an
unfinished tag is dropped, as the HTML parser drops a tag hit by EOF. -/
def tkFlush : TkMode → List HTok
  | .data => []
  | .charRef buf => ('&' :: buf).map .chr
  | _ => []

/-- Run the tokenizer over the input. -/
def tokenizeAux : TkMode → List Char → List HTok
  | m, [] => tkFlush m
  | m, c :: rest =>
    let r := tkStep m c
    r.2 ++ tokenizeAux r.1 rest

/-- Tokenize an HTML fragment string. -/
def tokenize (l : List Char) : List HTok :=
  tokenizeAux .data l

/-- Append a character at the end of a forest, merging it into a trailing
text node (the parser produces maximal text runs). -/
def snocChr : DN → Char → DN
  | .nil, c => .text [c] .nil
  | .text s .nil, c => .text (s ++ [c]) .nil
  | .text s next, c => .text s (snocChr next c)
  | .elem t i cl dv di ch next, c => .elem t i cl dv di ch (snocChr next c)

/-- Append a completed node (with empty `next`) at the end of a forest. -/
def snocNode : DN → DN → DN
  | .nil, n => n
  | .text s next, n => .text s (snocNode next n)
  | .elem t i cl dv di ch next, n => .elem t i cl dv di ch (snocNode next n)

/-- An open element under construction. -/
structure BFrame where
  tag : List Char
  attrs : List (List Char × List Char)
  children : DN
deriving DecidableEq, Repr

/-- Build an element node from a tag name and its attribute list,
keeping the attributes the engine reads (`id`, `class`, `data-verdict`,
`data-id`); a duplicated attribute keeps its first value, as in HTML. -/
def attrsToElem (tag : List Char) (attrs : List (List Char × List Char))
    (children next : DN) : DN :=
  .elem tag ((attrs.lookup "id".toList).getD [])
    ((attrs.lookup "class".toList).getD [])
    (attrs.lookup "data-verdict".toList)
    (attrs.lookup "data-id".toList) children next

/-- The element node of a completed frame. -/
def elemOfFrame (f : BFrame) : DN :=
  attrsToElem f.tag f.attrs f.children .nil

/-- Attach a completed node to the innermost open element, or to the
root fragment when no element is open. -/
def pushChild (stack : List BFrame) (acc : DN) (n : DN) :
    List BFrame × DN :=
  match stack with
  | [] => ([], snocNode acc n)
  | f :: rest => ({ f with children := snocNode f.children n } :: rest, acc)

/-- Pop open elements, attaching each to its parent, until the one named
`name` has been popped (the matching end tag implicitly closes the
elements above it). Fuel-driven on the stack depth. -/
def closeToF (name : List Char) : Nat → List BFrame → DN →
    List BFrame × DN
  | 0, st, acc => (st, acc)
  | _ + 1, [], acc => ([], acc)
  | fuel + 1, f :: rest, acc =>
    if f.tag = name then pushChild rest acc (elemOfFrame f)
    else
      let r := pushChild rest acc (elemOfFrame f)
      closeToF name fuel r.1 r.2

/-- Close open elements up to and including the one named `name`. -/
def closeTo (name : List Char) (st : List BFrame) (acc : DN) :
    List BFrame × DN :=
  closeToF name st.length st acc

/-- One token of tree construction. An end tag with no matching open
element is ignored, as in HTML. -/
def buildTok (st : List BFrame) (acc : DN) : HTok → List BFrame × DN
  | .chr c =>
    match st with
    | [] => ([], snocChr acc c)
    | f :: rest => ({ f with children := snocChr f.children c } :: rest, acc)
  | .openTag name attrs sc =>
    if sc then pushChild st acc (attrsToElem name attrs .nil .nil)
    else (⟨name, attrs, .nil⟩ :: st, acc)
  | .closeTag name =>
    if st.any (fun f => f.tag = name) then closeTo name st acc
    else (st, acc)

/-- Close every element still open at end of input. -/
def flushFramesF : Nat → List BFrame → DN → DN
  | 0, _, acc => acc
  | _ + 1, [], acc => acc
  | fuel + 1, f :: rest, acc =>
    let r := pushChild rest acc (elemOfFrame f)
    flushFramesF fuel r.1 r.2

/-- Run the tree builder over a token list. -/
def buildToks : List HTok → List BFrame → DN → DN
  | [], st, acc => flushFramesF st.length st acc
  | t :: ts, st, acc =>
    let r := buildTok st acc t
    buildToks ts r.1 r.2

/-- `tempDiv.innerHTML = l` (part_000 line 180): the fragment the string
parses to. -/
def parseHTML (l : List Char) : DN :=
  buildToks (tokenize l) [] .nil

/-! ## Match-and-mark (`highlightTextInNode`, part_000 lines 159-194) -/

/-- `classList.contains(token)`: membership of the token in the class
attribute split on whitespace. -/
def classListContains (className token : List Char) : Bool :=
  (splitRuns isJsWs className).contains token

/-- The `tempDiv` walk (part_000 lines 183-190): every direct child of
the parsed fragment that is an element whose class list contains
`safesearch-highlight-${verdict}` is pushed onto `highlightedElements`,
recorded here as a `MarkerRef` mirroring the element. -/
def collectMarks (verdict : List Char) : DN → List MarkerRef
  | .nil => []
  | .text _ next => collectMarks verdict next
  | .elem _ _ className dv di children next =>
    if classListContains className (hlClassPrefix ++ verdict) then
      ⟨className, dv, di, textContentN children⟩ :: collectMarks verdict next
    else collectMarks verdict next

/-- Concatenation of two sibling forests (`parent.replaceChild(fragment,
textNode)` splices the fragment's children before the node's following
siblings; the DOM does not merge text nodes across that boundary). -/
def appendDN : DN → DN → DN
  | .nil, d => d
  | .text s next, d => .text s (appendDN next d)
  | .elem t i cl dv di ch next, d => .elem t i cl dv di ch (appendDN next d)

/-- The lossless splice that §4.3 of the spec contracts for the rewrite:
plain pieces become text nodes (empty ones none), each matched run
becomes a marker wrapping exactly that run, with the counter and the
marker records advancing left to right. `highlightTextInNode` below
realises this splice only up to the `innerHTML` parse; the two agree
exactly when the text and the verdict contain no markup-significant
characters. -/
def renderPieces (verdict : List Char) (cnt : Nat) (tail : DN) :
    List Seg → DN × Nat × List MarkerRef
  | [] => (tail, cnt, [])
  | Sum.inl s :: rest =>
    let (d, c, ms) := renderPieces verdict cnt tail rest
    (if s.isEmpty then d else .text s d, c, ms)
  | Sum.inr m :: rest =>
    let (d, c, ms) := renderPieces verdict (cnt + 1) tail rest
    (mkMark verdict (cnt + 1) m d, c,
      ⟨hlClassPrefix ++ verdict, some verdict,
        some (natToString (cnt + 1)), m⟩ :: ms)

/-- `highlightTextInNode` (part_000 lines 159-194): when the node's text
matches the case-insensitive literal pattern, build `highlightedHTML`
(raw text around `<mark>` wrappers), parse it as the browser's
`innerHTML` assignment does, collect the direct marker children into the
session, and splice the parsed fragment in front of the node's following
siblings `tail` (`parent.replaceChild(fragment, textNode)`); otherwise
the node is left in place (`if (matches)` guard, line 170). Returns the
new forest at the node's position, the advanced session counter and the
created marker records. -/
def highlightTextInNode (searchText verdict : List Char) (cnt : Nat)
    (s : List Char) (tail : DN) : DN × Nat × List MarkerRef :=
  if containsCI searchText s then
    let b := buildPieces verdict cnt (splitOccur searchText s)
    let frag := parseHTML b.1
    (appendDN frag tail, b.2, collectMarks verdict frag)
  else (.text s tail, cnt, [])

/-! ## Tree search (`findAndHighlightText`, part_000 lines 100-151) -/

/-- The id the tree walker's filter excludes:
`parent.closest('#safesearch-sidebar-root')` (part_000 line 118). -/
def sbExcludeId : List Char := "safesearch-sidebar-root".toList

/-- The id of the sidebar root the extension actually injects:
`this.sidebarContainer.id = 'clarity-sidebar-root'` (content.js line 50). -/
def clarityRootId : List Char := "clarity-sidebar-root".toList

/-- The walker's `acceptNode` filter for a text node (part_000 lines
107-123): the nearest element ancestor `parent` must not be a
`script`/`style`/`noscript` tag, and no ancestor may be the element with
id `safesearch-sidebar-root`. `ptag` is the parent's tag name, `inSb`
whether `parent.closest('#safesearch-sidebar-root')` is non-null. -/
def acceptText (ptag : List Char) (inSb : Bool) : Bool :=
  !(lcs ptag = "script".toList || lcs ptag = "style".toList ||
    lcs ptag = "noscript".toList) && !inSb

/-- Document-order scan of the forest: the first text node accepted by the
filter whose lowercased content contains the lowercased pattern is
rewritten by `highlightTextInNode`, after which scanning stops (`break`,
line 146). The source collects the walker's text nodes into an array
before mutating; since exactly one node is rewritten and the scan stops
there, the one-pass rewrite is the same function on the document. Returns
the rewritten forest, the advanced counter, the created markers and the
found flag. -/
def fahtN (pat verdict : List Char) (cnt : Nat) (ptag : List Char)
    (inSb : Bool) : DN → DN × Nat × List MarkerRef × Bool
  | .nil => (.nil, cnt, [], false)
  | .text s next =>
    if acceptText ptag inSb && containsCI pat s then
      let r := highlightTextInNode pat verdict cnt s next
      (r.1, r.2.1, r.2.2, true)
    else
      let r := fahtN pat verdict cnt ptag inSb next
      (.text s r.1, r.2.1, r.2.2.1, r.2.2.2)
  | .elem tag idAttr className dv di children next =>
    let rc := fahtN pat verdict cnt tag (inSb || idAttr = sbExcludeId) children
    if rc.2.2.2 then
      (.elem tag idAttr className dv di rc.1 next, rc.2.1, rc.2.2.1, true)
    else
      let rn := fahtN pat verdict cnt ptag inSb next
      (.elem tag idAttr className dv di rc.1 rn.1, rn.2.1, rn.2.2.1, rn.2.2.2)

/-- `findAndHighlightText` (part_000 lines 100-151): defensive guard
(`!searchText || searchText.length < 10`, line 101 — the empty string is
falsy, so the length test subsumes it), then the document-order scan from
`document.body`. `body` is the body element node. -/
def findAndHighlightText (searchText verdict : List Char) (cnt : Nat)
    (body : DN) : DN × Nat × List MarkerRef × Bool :=
  if searchText.length < 10 then (body, cnt, [], false)
  else fahtN searchText verdict cnt [] false body

/-! ## Clearing (`clearHighlights`, part_000 lines 228-247) -/

/-- Prepend a text run to a forest, merging with a leading text sibling:
the effect of `parent.normalize()` on the just-unwrapped marker text. -/
def consText (s : List Char) : DN → DN
  | .text t next => .text (s ++ t) next
  | d => .text s d

/-- The document side of `clearHighlights`: every element whose class
attribute contains `safesearch-highlight-` (the `querySelectorAll`
selector, line 230) is replaced by a plain text node holding its
`textContent` (un-wrap, line 234), and `parent.normalize()` (line 235)
merges that text with adjacent text siblings. Subtrees without markers
are untouched, as the source touches only parents of selected markers.
The model merges the unwrapped text with its following sibling; the merge
with a preceding text sibling (also performed by `normalize`) changes
only node boundaries, never text content, and none of the verified
properties can observe it. -/
def clearN : DN → DN
  | .nil => .nil
  | .text s next => .text s (clearN next)
  | .elem tag idAttr className dv di children next =>
    if isHlClass className then consText (textContentN children) (clearN next)
    else .elem tag idAttr className dv di (clearN children) (clearN next)

/-! ## The session and the public operations -/

/-- The engine's state: the document body, the session fields
`highlightedElements` and `highlightCounter` (part_000 lines 8-9), and the
`clearHighlights` button (`none`: absent from the page; `some b`: present
with visibility `b`). -/
structure EngineState where
  doc : DN
  highlightedElements : List MarkerRef
  highlightCounter : Nat
  clearButton : Option Bool
deriving DecidableEq, Repr

/-- `clearHighlights` (part_000 lines 228-247): un-wrap every marker in
the document, reset `highlightedElements` to `[]` and the counter to `0`,
and hide the clear button when it exists (lines 243-246). -/
def clearHighlights (st : EngineState) : EngineState :=
  { doc := clearN st.doc
    highlightedElements := []
    highlightCounter := 0
    clearButton := st.clearButton.map (fun _ => false) }

/-- The candidate loop of `highlightAndNavigateToText` (part_000 lines
25-32): try each target in priority order, stopping at the first for
which `findAndHighlightText` reports a match. -/
def tryTargets (verdict : List Char) (st : EngineState) :
    List (List Char) → EngineState × Bool
  | [] => (st, false)
  | t :: ts =>
    let r := findAndHighlightText t verdict st.highlightCounter st.doc
    let st' : EngineState := { st with
      doc := r.1
      highlightCounter := r.2.1
      highlightedElements := st.highlightedElements ++ r.2.2.1 }
    if r.2.2.2 then (st', true) else tryTargets verdict st' ts

/-- `highlightAndNavigateToText` (part_000 lines 17-41): clear previous
highlights, extract the candidates, try them in order. A non-string
`claimText` (modelled `none`) reaches `claimText.trim()` inside
`extractSearchTargets` and throws a `TypeError`, modelled as
`Except.error ()` — note the entry clear has already run at that point.
The outcome `Bool` is the `found` flag; `found = false` triggers the
transient no-match notification (`showNoMatchesMessage`), a self-removing
node modelled by the flag itself, and `found = true` triggers the scroll
and pulse animation, which change no document content. -/
def highlightAndNavigateToText (claimText : Option (List Char))
    (verdict : List Char) (st : EngineState) :
    EngineState × Except Unit Bool :=
  let st1 := clearHighlights st
  match claimText with
  | none => (st1, Except.error ())
  | some s =>
    let r := tryTargets verdict st1 (extractSearchTargets s)
    (r.1, Except.ok r.2)

/-! ## Auxiliary observation functions -/

/-- Total length of a list of strings. -/
def sumLens (ws : List (List Char)) : Nat :=
  (ws.map List.length).sum

/-- The text carried by a piece. -/
def segStr : Seg → List Char
  | Sum.inl s => s
  | Sum.inr s => s

/-- Concatenation of the pieces' texts. -/
def joinSegs (segs : List Seg) : List Char :=
  segs.foldr (fun sg acc => segStr sg ++ acc) []

/-! ## Concrete instances used by the analysis -/

/-- A document body whose only text sits inside the extension's own
injected sidebar root (`injectSidebar`, content.js lines 48-57, builds
`<div id=rootId>` and appends it to `document.body`). -/
def sidebarDoc (rootId : List Char) : DN :=
  .elem "body".toList [] [] none none
    (.elem "div".toList rootId [] none none
      (.text ("Claim: Housing prices fell sharply across the region last year, says report".toList)
        .nil) .nil) .nil

/-- Fresh engine state over `sidebarDoc`. -/
def sidebarState (rootId : List Char) : EngineState :=
  ⟨sidebarDoc rootId, [], 0, some false⟩

/-- A claim whose first extracted candidate occurs in the sidebar text. -/
def housingClaim : List Char :=
  "Housing prices fell sharply across the region".toList

/-- The spec's example input, with surrounding quotes and trailing
period. -/
def housingInput : List Char :=
  "\"Housing prices fell sharply across the region last year.\"".toList

/-- The spec's example input with the quotes and period stripped. -/
def housingSentence : List Char :=
  "Housing prices fell sharply across the region last year".toList

/-- A page with the texts `s1`, `s2`, `s3` in three different nodes. -/
def threeNodeDoc (s1 s2 s3 : List Char) : DN :=
  .elem "body".toList [] [] none none
    (.elem "p".toList [] [] none none (.text s1 .nil)
      (.elem "p".toList [] [] none none (.text s2 .nil)
        (.elem "p".toList [] [] none none (.text s3 .nil) .nil))) .nil

/-- A page with one paragraph of prose. -/
def proseDoc : DN :=
  .elem "body".toList [] [] none none
    (.elem "p".toList [] [] none none
      (.text "The quick brown fox jumps over the lazy dog tonight".toList
        .nil) .nil) .nil

/-- Fresh engine state over `proseDoc`. -/
def proseState : EngineState := ⟨proseDoc, [], 0, some false⟩

/-- A claim found verbatim in `proseDoc`. -/
def proseClaim : List Char :=
  "The quick brown fox jumps over the lazy dog tonight".toList

/-- A claim with one extracted candidate, absent from `proseDoc`. -/
def absentClaim : List Char := "zzzz zzzz zzzz".toList

/-- The state after a successful highlight call on `proseState`. -/
def afterFirstCall : EngineState :=
  (highlightAndNavigateToText (some proseClaim) "verified".toList
    proseState).1

/-- A page paragraph whose rendered text contains a character-reference
form: page source `see &amp;amp; examples in this text`, textContent
`see &amp; examples in this text`. -/
def ampText : List Char := "see &amp; examples in this text".toList

/-- What the engine's unescaped `innerHTML` round trip turns `ampText`
into: the `&amp;` collapses to `&`. -/
def ampCorrupted : List Char := "see & examples in this text".toList

/-- A page with `ampText` in one paragraph. -/
def ampDoc : DN :=
  .elem "body".toList [] [] none none
    (.elem "p".toList [] [] none none (.text ampText .nil) .nil) .nil

/-- Fresh engine state over `ampDoc`. -/
def ampState : EngineState := ⟨ampDoc, [], 0, some false⟩

/-- A node text with a character-reference form inside the matched run. -/
def c6Text : List Char := "alpha &amp; beta gamma".toList

/-- A candidate matching `c6Text` across the `&amp;`. -/
def c6Pat : List Char := "&amp; beta".toList

/-! ## Basic string lemmas -/

theorem length_dropWhile_le (p : Char → Bool) (l : List Char) :
    (l.dropWhile p).length ≤ l.length :=
  (List.dropWhile_sublist p).length_le

theorem length_takeWhile_le (p : Char → Bool) (l : List Char) :
    (l.takeWhile p).length ≤ l.length :=
  (List.takeWhile_sublist p).length_le

theorem jsTrim_length_le (l : List Char) : (jsTrim l).length ≤ l.length := by
  unfold jsTrim
  have h1 : (l.dropWhile isJsWs).length ≤ l.length :=
    length_dropWhile_le _ _
  have h2 := length_dropWhile_le isJsWs (l.dropWhile isJsWs).reverse
  simp only [List.length_reverse] at *
  omega

theorem jsTrim_eq_nil (l : List Char) (h : ∀ c ∈ l, isJsWs c) :
    jsTrim l = [] := by
  unfold jsTrim
  have h1 : l.dropWhile isJsWs = [] := List.dropWhile_eq_nil_iff.2 h
  simp [h1]

theorem sumLens_filter_le (q : List Char → Bool) (ws : List (List Char)) :
    sumLens (ws.filter q) ≤ sumLens ws := by
  induction ws with
  | nil => simp [sumLens]
  | cons w ws ih =>
    by_cases h : q w <;> simp [sumLens, List.filter_cons, h] at * <;> omega

theorem sumLens_lower (k : Nat) (ws : List (List Char))
    (h : ∀ w ∈ ws, k ≤ w.length) : ws.length * k ≤ sumLens ws := by
  induction ws with
  | nil => simp [sumLens]
  | cons w ws ih =>
    have hw := h w (by simp)
    have := ih (fun w hw => h w (by simp [hw]))
    simp only [sumLens, List.map_cons, List.sum_cons, List.length_cons] at *
    calc (ws.length + 1) * k = ws.length * k + k := by ring
    _ ≤ _ := by omega

theorem splitRunsF_fuel (p : Char → Bool) (f1 f2 : Nat) (l : List Char)
    (h1 : l.length ≤ f1) (h2 : l.length ≤ f2) :
    splitRunsF p f1 l = splitRunsF p f2 l := by
  induction f1 using Nat.strong_induction_on generalizing f2 l with
  | _ f1 ih =>
    match f1, f2 with
    | 0, 0 => rfl
    | 0, g + 1 =>
      have : l = [] := List.length_eq_zero.1 (Nat.le_zero.1 h1)
      subst this; rfl
    | g + 1, 0 =>
      have : l = [] := List.length_eq_zero.1 (Nat.le_zero.1 h2)
      subst this; rfl
    | g1 + 1, g2 + 1 =>
      simp only [splitRunsF]
      cases hd : l.dropWhile (fun c => !p c) with
      | nil => rfl
      | cons c t =>
        have hdl : (l.dropWhile (fun c => !p c)).length ≤ l.length :=
          length_dropWhile_le _ _
        have htl : t.length < l.length := by
          rw [hd] at hdl; simp at hdl; omega
        have hrl : (t.dropWhile p).length ≤ t.length :=
          length_dropWhile_le _ _
        dsimp only
        rw [ih g1 (by omega) g2 (t.dropWhile p) (by omega) (by omega)]

/-- One-step unfolding of `splitRuns`: take the segment before the first
separator; if a separator follows, drop the separator run and continue. -/
theorem splitRuns_eq (p : Char → Bool) (l : List Char) :
    splitRuns p l =
      match l.dropWhile (fun c => !p c) with
      | [] => [l.takeWhile (fun c => !p c)]
      | _ :: t => l.takeWhile (fun c => !p c) :: splitRuns p (t.dropWhile p) := by
  unfold splitRuns
  cases hl : l.length with
  | zero =>
    have : l = [] := List.length_eq_zero.1 hl
    subst this; rfl
  | succ n =>
    simp only [splitRunsF]
    cases hd : l.dropWhile (fun c => !p c) with
    | nil => rfl
    | cons c t =>
      have hdl : (l.dropWhile (fun c => !p c)).length ≤ l.length :=
        length_dropWhile_le _ _
      have htl : t.length < l.length := by
        rw [hd] at hdl; simp at hdl; omega
      have hrl : (t.dropWhile p).length ≤ t.length :=
        length_dropWhile_le _ _
      dsimp only
      rw [splitRunsF_fuel p n (t.dropWhile p).length (t.dropWhile p)
        (by omega) (le_refl _)]

theorem sumLens_splitRuns_le (p : Char → Bool) (l : List Char) :
    sumLens (splitRuns p l) ≤ l.length := by
  suffices H : ∀ n l, List.length l ≤ n → sumLens (splitRuns p l) ≤ l.length from
    H l.length l (le_refl _)
  intro n
  induction n with
  | zero =>
    intro l hl
    have : l = [] := List.length_eq_zero.1 (Nat.le_zero.1 hl)
    subst this
    simp [splitRuns, splitRunsF, sumLens]
  | succ n ih =>
    intro l hl
    rw [splitRuns_eq]
    have hseg : (l.takeWhile (fun c => !p c)).length ≤ l.length :=
      length_takeWhile_le _ _
    cases hd : l.dropWhile (fun c => !p c) with
    | nil =>
      simp only [sumLens, List.map_cons, List.map_nil, List.sum_cons,
        List.sum_nil]
      omega
    | cons c t =>
      have hsplit := List.takeWhile_append_dropWhile (l := l)
        (p := fun c => !p c)
      have hlen : (l.takeWhile (fun c => !p c)).length + t.length + 1 =
          l.length := by
        have := congrArg List.length hsplit
        rw [hd] at this; simp at this; omega
      have hrl : (t.dropWhile p).length ≤ t.length :=
        length_dropWhile_le _ _
      have ihr := ih (t.dropWhile p) (by omega)
      simp only [sumLens, List.map_cons, List.sum_cons] at *
      omega

theorem mem_splitRuns_length_le (p : Char → Bool) (l s : List Char)
    (h : s ∈ splitRuns p l) : s.length ≤ l.length := by
  suffices H : ∀ n l s, List.length l ≤ n → s ∈ splitRuns p l →
      List.length s ≤ l.length from H l.length l s (le_refl _) h
  clear h s l
  intro n
  induction n with
  | zero =>
    intro l s hl h
    have : l = [] := List.length_eq_zero.1 (Nat.le_zero.1 hl)
    subst this
    simp [splitRuns, splitRunsF] at h
    simp [h]
  | succ n ih =>
    intro l s hl h
    rw [splitRuns_eq] at h
    have hseg : (l.takeWhile (fun c => !p c)).length ≤ l.length :=
      length_takeWhile_le _ _
    cases hd : l.dropWhile (fun c => !p c) with
    | nil =>
      rw [hd] at h; simp at h; subst h; exact hseg
    | cons c t =>
      rw [hd] at h
      have hsplit := List.takeWhile_append_dropWhile (l := l)
        (p := fun c => !p c)
      have hlen : (l.takeWhile (fun c => !p c)).length + t.length + 1 =
          l.length := by
        have := congrArg List.length hsplit
        rw [hd] at this; simp at this; omega
      have hrl : (t.dropWhile p).length ≤ t.length :=
        length_dropWhile_le _ _
      rcases List.mem_cons.1 h with h1 | h2
      · subst h1; exact hseg
      · have := ih (t.dropWhile p) s (by omega) h2
        omega

/-! ## Occurrence lemmas -/

theorem lcs_length (l : List Char) : (lcs l).length = l.length := by
  simp [lcs]

theorem lcs_drop (l : List Char) (n : Nat) :
    lcs (l.drop n) = (lcs l).drop n := by
  simp [lcs, List.map_drop]

theorem lcs_take (l : List Char) (n : Nat) :
    lcs (l.take n) = (lcs l).take n := by
  simp [lcs, List.map_take]

theorem findOcc_nil (pat : List Char) (hp : pat ≠ []) :
    findOcc pat [] = none := by
  simp [findOcc, hp]

theorem findOcc_some_prefix (pat text : List Char) (i : Nat)
    (h : findOcc pat text = some i) :
    (lcs pat).isPrefixOf (lcs (text.drop i)) = true := by
  induction text generalizing i with
  | nil =>
    by_cases hp : pat = []
    · subst hp; simp [lcs]
    · rw [findOcc_nil pat hp] at h; cases h
  | cons c t ih =>
    rw [findOcc] at h
    by_cases hpre : (lcs pat).isPrefixOf (lcs (c :: t)) = true
    · rw [if_pos hpre] at h
      cases h
      simpa using hpre
    · rw [if_neg hpre] at h
      simp only [List.tail_cons, Option.map_eq_some'] at h
      obtain ⟨j, hj, rfl⟩ := h
      simpa using ih j hj

theorem findOcc_some_min (pat text : List Char) (i : Nat)
    (h : findOcc pat text = some i) :
    ∀ j < i, (lcs pat).isPrefixOf (lcs (text.drop j)) = false := by
  induction text generalizing i with
  | nil =>
    by_cases hp : pat = []
    · subst hp; simp [findOcc] at h; omega
    · rw [findOcc_nil pat hp] at h; cases h
  | cons c t ih =>
    rw [findOcc] at h
    by_cases hpre : (lcs pat).isPrefixOf (lcs (c :: t)) = true
    · rw [if_pos hpre] at h
      cases h
      omega
    · rw [if_neg hpre] at h
      simp only [List.tail_cons, Option.map_eq_some'] at h
      obtain ⟨j', hj', rfl⟩ := h
      intro j hj
      cases j with
      | zero => simpa using Bool.not_eq_true _ ▸ (by simpa using hpre)
      | succ k =>
        have := ih j' hj' k (by omega)
        simpa using this

theorem findOcc_none_no (pat text : List Char)
    (h : findOcc pat text = none) (j : Nat) :
    (lcs pat).isPrefixOf (lcs (text.drop j)) = false := by
  induction text generalizing j with
  | nil =>
    have hp : pat ≠ [] := by
      intro he; subst he; simp [findOcc] at h
    cases j <;> · simp only [List.drop]
                  cases hl : (lcs pat) with
                  | nil => exact absurd (by simpa [lcs] using hl) hp
                  | cons a b => simp [lcs, List.isPrefixOf]
  | cons c t ih =>
    rw [findOcc] at h
    by_cases hpre : (lcs pat).isPrefixOf (lcs (c :: t)) = true
    · rw [if_pos hpre] at h; cases h
    · rw [if_neg hpre] at h
      simp only [List.tail_cons, Option.map_eq_none'] at h
      cases j with
      | zero => simpa using Bool.eq_false_iff.2 hpre
      | succ k => simpa using ih h k

theorem findOcc_some_bound (pat text : List Char) (i : Nat)
    (hp : pat ≠ []) (h : findOcc pat text = some i) :
    i + pat.length ≤ text.length := by
  have hpre := findOcc_some_prefix pat text i h
  have hlen : (lcs pat).length ≤ (lcs (text.drop i)).length :=
    (List.isPrefixOf_iff_prefix.1 hpre).length_le
  rw [lcs_length, lcs_length, List.length_drop] at hlen
  have : 1 ≤ pat.length := List.length_pos.2 hp
  omega

theorem containsCI_true_iff (pat text : List Char) :
    containsCI pat text = true ↔
      ∃ j, (lcs pat).isPrefixOf (lcs (text.drop j)) = true := by
  constructor
  · intro h
    unfold containsCI at h
    cases hf : findOcc pat text with
    | none => rw [hf] at h; cases h
    | some i => exact ⟨i, findOcc_some_prefix pat text i hf⟩
  · rintro ⟨j, hj⟩
    unfold containsCI
    cases hf : findOcc pat text with
    | none => rw [findOcc_none_no pat text hf j] at hj; cases hj
    | some i => rfl

/-- `includes` really is substring containment of the lowercased texts. -/
theorem containsCI_iff_infix (pat text : List Char) :
    containsCI pat text = true ↔ lcs pat <:+: lcs text := by
  rw [containsCI_true_iff]
  constructor
  · rintro ⟨j, hj⟩
    rw [lcs_drop] at hj
    exact List.infix_iff_prefix_suffix.2
      ⟨(lcs text).drop j, List.isPrefixOf_iff_prefix.1 hj,
        List.drop_suffix _ _⟩
  · rintro ⟨s, t, hst⟩
    refine ⟨s.length, ?_⟩
    rw [lcs_drop, List.isPrefixOf_iff_prefix]
    refine ⟨t, ?_⟩
    rw [← hst, List.append_assoc, List.drop_left]

/-! ## Decomposition lemmas for `splitOccur` -/

theorem splitOccurF_fuel (pat : List Char) (hp : pat ≠ []) (f1 f2 : Nat)
    (text : List Char) (h1 : text.length ≤ f1) (h2 : text.length ≤ f2) :
    splitOccurF pat f1 text = splitOccurF pat f2 text := by
  induction f1 generalizing f2 text with
  | zero =>
    have : text = [] := List.length_eq_zero.1 (Nat.le_zero.1 h1)
    subst this
    cases f2 with
    | zero => rfl
    | succ g => simp [splitOccurF, findOcc_nil pat hp]
  | succ g1 ih =>
    cases f2 with
    | zero =>
      have : text = [] := List.length_eq_zero.1 (Nat.le_zero.1 h2)
      subst this
      simp [splitOccurF, findOcc_nil pat hp]
    | succ g2 =>
      simp only [splitOccurF]
      cases hf : findOcc pat text with
      | none => rfl
      | some i =>
        have hb := findOcc_some_bound pat text i hp hf
        have hplen : 1 ≤ pat.length := List.length_pos.2 hp
        have hlen : (text.drop (i + pat.length)).length ≤ g1 := by
          rw [List.length_drop]; omega
        have hlen2 : (text.drop (i + pat.length)).length ≤ g2 := by
          rw [List.length_drop]; omega
        dsimp only
        rw [ih g2 (text.drop (i + pat.length)) hlen hlen2]

/-- One-step unfolding of `splitOccur` for a nonempty pattern. -/
theorem splitOccur_eq (pat text : List Char) (hp : pat ≠ []) :
    splitOccur pat text =
      match findOcc pat text with
      | none => [Sum.inl text]
      | some i =>
        Sum.inl (text.take i) :: Sum.inr ((text.drop i).take pat.length) ::
          splitOccur pat (text.drop (i + pat.length)) := by
  simp only [splitOccur, hp, if_false, ite_false]
  cases hl : text.length with
  | zero =>
    have : text = [] := List.length_eq_zero.1 (by omega)
    subst this
    simp [splitOccurF, findOcc_nil pat hp]
  | succ n =>
    simp only [splitOccurF]
    cases hf : findOcc pat text with
    | none => rfl
    | some i =>
      have hb := findOcc_some_bound pat text i hp hf
      have hplen : 1 ≤ pat.length := List.length_pos.2 hp
      dsimp only
      rw [splitOccurF_fuel pat hp n (text.drop (i + pat.length)).length
        (text.drop (i + pat.length)) (by rw [List.length_drop]; omega)
        (le_refl _)]

theorem joinSegs_splitOccur (pat text : List Char) :
    joinSegs (splitOccur pat text) = text := by
  by_cases hp : pat = []
  · subst hp; simp [splitOccur, joinSegs, segStr]
  suffices H : ∀ n text, List.length text ≤ n →
      joinSegs (splitOccur pat text) = text from H text.length text (le_refl _)
  intro n
  induction n with
  | zero =>
    intro text hl
    have : text = [] := List.length_eq_zero.1 (Nat.le_zero.1 hl)
    subst this
    rw [splitOccur_eq pat [] hp, findOcc_nil pat hp]
    simp [joinSegs, segStr]
  | succ n ih =>
    intro text hl
    rw [splitOccur_eq pat text hp]
    cases hf : findOcc pat text with
    | none => simp [joinSegs, segStr]
    | some i =>
      have hb := findOcc_some_bound pat text i hp hf
      have hplen : 1 ≤ pat.length := List.length_pos.2 hp
      have ihr := ih (text.drop (i + pat.length))
        (by rw [List.length_drop]; omega)
      dsimp only
      simp only [joinSegs, List.foldr_cons, segStr] at *
      rw [ihr]
      have hdd : text.drop (i + pat.length) = (text.drop i).drop pat.length := by
        rw [List.drop_drop, Nat.add_comm]
      rw [hdd, List.take_append_drop, List.take_append_drop]

theorem mem_inr_splitOccur (pat text m : List Char) (hp : pat ≠ [])
    (h : Sum.inr m ∈ splitOccur pat text) : lcs m = lcs pat := by
  suffices H : ∀ n text, List.length text ≤ n →
      Sum.inr m ∈ splitOccur pat text → lcs m = lcs pat from
    H text.length text (le_refl _) h
  clear h text
  intro n
  induction n with
  | zero =>
    intro text hl h
    have : text = [] := List.length_eq_zero.1 (Nat.le_zero.1 hl)
    subst this
    rw [splitOccur_eq pat [] hp, findOcc_nil pat hp] at h
    simp at h
  | succ n ih =>
    intro text hl h
    rw [splitOccur_eq pat text hp] at h
    cases hf : findOcc pat text with
    | none => rw [hf] at h; simp at h
    | some i =>
      rw [hf] at h
      have hb := findOcc_some_bound pat text i hp hf
      have hplen : 1 ≤ pat.length := List.length_pos.2 hp
      dsimp only at h
      rcases List.mem_cons.1 h with h0 | h1
      · cases h0
      rcases List.mem_cons.1 h1 with h2 | h3
      · cases h2
        have hpre := findOcc_some_prefix pat text i hf
        have heq := List.prefix_iff_eq_take.1 (List.isPrefixOf_iff_prefix.1 hpre)
        rw [lcs_length] at heq
        rw [lcs_take]
        exact heq.symm
      · exact ih (text.drop (i + pat.length))
          (by rw [List.length_drop]; omega) h3

theorem mem_inl_splitOccur (pat text s : List Char) (hp : pat ≠ [])
    (h : Sum.inl s ∈ splitOccur pat text) : containsCI pat s = false := by
  suffices H : ∀ n text, List.length text ≤ n →
      Sum.inl s ∈ splitOccur pat text → containsCI pat s = false from
    H text.length text (le_refl _) h
  clear h text
  intro n
  induction n with
  | zero =>
    intro text hl h
    have : text = [] := List.length_eq_zero.1 (Nat.le_zero.1 hl)
    subst this
    rw [splitOccur_eq pat [] hp, findOcc_nil pat hp] at h
    simp at h
    subst h
    simp [containsCI, findOcc_nil pat hp]
  | succ n ih =>
    intro text hl h
    rw [splitOccur_eq pat text hp] at h
    cases hf : findOcc pat text with
    | none =>
      rw [hf] at h
      simp at h
      subst h
      simp [containsCI, hf]
    | some i =>
      rw [hf] at h
      have hb := findOcc_some_bound pat text i hp hf
      have hplen : 1 ≤ pat.length := List.length_pos.2 hp
      dsimp only at h
      rcases List.mem_cons.1 h with h0 | h1
      · cases h0
        by_contra hcon
        have hcon' : containsCI pat (text.take i) = true := by
          cases hcc : containsCI pat (text.take i) with
          | false => exact absurd hcc hcon
          | true => rfl
        obtain ⟨j, hj⟩ := (containsCI_true_iff pat (text.take i)).1 hcon'
        have hjlen : j + pat.length ≤ i := by
          have := (List.isPrefixOf_iff_prefix.1 hj).length_le
          rw [lcs_length, lcs_length, List.length_drop,
            List.length_take] at this
          omega
        have htrans : (lcs pat).isPrefixOf (lcs (text.drop j)) = true := by
          rw [List.isPrefixOf_iff_prefix] at hj ⊢
          refine hj.trans ?_
          rw [lcs_drop, lcs_take, lcs_drop]
          rw [List.drop_take]
          exact (List.take_prefix _ _)
        have := findOcc_some_min pat text i hf j (by omega)
        rw [htrans] at this
        cases this
      rcases List.mem_cons.1 h1 with h2 | h3
      · cases h2
      · exact ih (text.drop (i + pat.length))
          (by rw [List.length_drop]; omega) h3

/-! ## Lemmas on the rendered fragment -/

theorem regexLiteral_escape (s : List Char) :
    regexLiteral (escapeRegExp s) = some s := by
  induction s with
  | nil => rfl
  | cons c rest ih =>
    by_cases hm : isRegexMeta c
    · have hesc : escapeRegExp (c :: rest) =
          '\\' :: c :: escapeRegExp rest := by
        simp [escapeRegExp, hm]
      rw [hesc]
      simp [regexLiteral, ih]
    · have hesc : escapeRegExp (c :: rest) = c :: escapeRegExp rest := by
        simp [escapeRegExp, hm]
      have hcb : ¬(c = '\\') := by
        intro hc; subst hc; simp [isRegexMeta] at hm
      rw [hesc]
      rw [regexLiteral.eq_def]
      simp only []
      rw [if_neg hcb, if_neg hm, ih]
      rfl

theorem textContentN_mkMark (v : List Char) (id : Nat) (m : List Char)
    (d : DN) : textContentN (mkMark v id m d) = m ++ textContentN d := by
  simp [mkMark, textContentN]

theorem renderPieces_textContent (v : List Char) (cnt : Nat) (tail : DN)
    (segs : List Seg) :
    textContentN (renderPieces v cnt tail segs).1 =
      joinSegs segs ++ textContentN tail := by
  induction segs generalizing cnt with
  | nil => simp [renderPieces, joinSegs]
  | cons sg rest ih =>
    cases sg with
    | inl s =>
      by_cases hs : s.isEmpty
      · have hse : s = [] := by simpa using hs
        subst hse
        simp [renderPieces, joinSegs, segStr, ih cnt]
      · simp only [renderPieces, hs]
        simp [textContentN, joinSegs, segStr, ih cnt]
    | inr m =>
      simp only [renderPieces]
      simp [textContentN_mkMark, joinSegs, segStr, ih (cnt + 1)]

/-! ## Lemmas on the document operations -/

theorem fahtN_not_found (pat v : List Char) (cnt : Nat) (ptag : List Char)
    (inSb : Bool) (d : DN)
    (h : (fahtN pat v cnt ptag inSb d).2.2.2 = false) :
    fahtN pat v cnt ptag inSb d = (d, cnt, [], false) := by
  induction d generalizing cnt ptag inSb with
  | nil => rfl
  | text s next ih =>
    simp only [fahtN] at h ⊢
    by_cases hc : acceptText ptag inSb && containsCI pat s
    · rw [if_pos hc] at h; simp at h
    · rw [if_neg hc] at h ⊢
      simp only at h
      rw [ih cnt ptag inSb h]
  | elem tag idAttr className dv di children next ihc ihn =>
    simp only [fahtN] at h ⊢
    by_cases hf : (fahtN pat v cnt tag (inSb || idAttr = sbExcludeId)
        children).2.2.2
    · rw [if_pos hf] at h; simp at h
    · rw [if_neg hf] at h ⊢
      simp only at h
      rw [ihc cnt tag (inSb || idAttr = sbExcludeId) (Bool.not_eq_true _ ▸ eq_false_of_ne_true hf),
        ihn cnt ptag inSb h]

theorem findAndHighlightText_not_found (pat v : List Char) (cnt : Nat)
    (body : DN) (h : (findAndHighlightText pat v cnt body).2.2.2 = false) :
    findAndHighlightText pat v cnt body = (body, cnt, [], false) := by
  unfold findAndHighlightText at h ⊢
  by_cases hl : pat.length < 10
  · rw [if_pos hl]
  · rw [if_neg hl] at h ⊢
    exact fahtN_not_found pat v cnt [] false body h

theorem textContentN_consText (s : List Char) (d : DN) :
    textContentN (consText s d) = s ++ textContentN d := by
  cases d <;> simp [consText, textContentN]

theorem noMarksN_consText (s : List Char) (d : DN) :
    noMarksN (consText s d) = noMarksN d := by
  cases d <;> simp [consText, noMarksN]

theorem clearN_textContent (d : DN) :
    textContentN (clearN d) = textContentN d := by
  induction d with
  | nil => rfl
  | text s next ih => simp [clearN, textContentN, ih]
  | elem tag idAttr className dv di children next ihc ihn =>
    by_cases hh : isHlClass className
    · simp [clearN, hh, textContentN_consText, textContentN, ihn]
    · simp [clearN, hh, textContentN, ihc, ihn]

theorem clearN_noMarks (d : DN) : noMarksN (clearN d) = true := by
  induction d with
  | nil => rfl
  | text s next ih => simpa [clearN, noMarksN] using ih
  | elem tag idAttr className dv di children next ihc ihn =>
    by_cases hh : isHlClass className
    · simpa [clearN, hh, noMarksN_consText] using ihn
    · simp [clearN, hh, noMarksN, ihc, ihn]

theorem clearN_id_of_noMarks (d : DN) (h : noMarksN d = true) :
    clearN d = d := by
  induction d with
  | nil => rfl
  | text s next ih =>
    simp only [noMarksN] at h
    simp [clearN, ih h]
  | elem tag idAttr className dv di children next ihc ihn =>
    simp only [noMarksN, Bool.and_eq_true] at h
    obtain ⟨⟨hcl, hch⟩, hn⟩ := h
    have hh : isHlClass className = false := by
      cases hcc : isHlClass className with
      | false => rfl
      | true => rw [hcc] at hcl; cases hcl
    simp [clearN, hh, ihc hch, ihn hn]

theorem clearN_idem (d : DN) : clearN (clearN d) = clearN d :=
  clearN_id_of_noMarks (clearN d) (clearN_noMarks d)

/-! ## Lemmas on the session operations -/

theorem clearHighlights_idem (st : EngineState) :
    clearHighlights (clearHighlights st) = clearHighlights st := by
  unfold clearHighlights
  simp only [clearN_idem]
  cases hb : st.clearButton <;> simp

theorem tryTargets_not_found (v : List Char) (st : EngineState)
    (ts : List (List Char)) (h : (tryTargets v st ts).2 = false) :
    (tryTargets v st ts).1 = st := by
  induction ts generalizing st with
  | nil => rfl
  | cons t ts ih =>
    simp only [tryTargets] at h ⊢
    by_cases hf :
        (findAndHighlightText t v st.highlightCounter st.doc).2.2.2
    · rw [if_pos hf] at h; cases h
    · rw [if_neg hf] at h ⊢
      have hr := findAndHighlightText_not_found t v st.highlightCounter
        st.doc (eq_false_of_ne_true hf)
      rw [hr] at h ⊢
      have hst : ({ st with
          doc := st.doc
          highlightCounter := st.highlightCounter
          highlightedElements := st.highlightedElements ++ [] } :
            EngineState) = st := by
        simp
      rw [hst] at h ⊢
      exact ih st h

theorem tryTargets_clearButton (v : List Char) (st : EngineState)
    (ts : List (List Char)) :
    (tryTargets v st ts).1.clearButton = st.clearButton := by
  induction ts generalizing st with
  | nil => rfl
  | cons t ts ih =>
    simp only [tryTargets]
    by_cases hf :
        (findAndHighlightText t v st.highlightCounter st.doc).2.2.2
    · rw [if_pos hf]
    · rw [if_neg hf]
      rw [ih]

/-! ## Extraction lemmas -/

theorem sentenceCandidates_mem_length (clean t : List Char)
    (h : t ∈ sentenceCandidates clean) : 10 < t.length := by
  unfold sentenceCandidates at h
  exact of_decide_eq_true (List.mem_filter.1 h).2

theorem phraseCandidates_mem_length (clean t : List Char)
    (h : t ∈ phraseCandidates clean) : 20 < t.length := by
  unfold phraseCandidates at h
  simp only at h
  by_cases h5 : 5 ≤ (claimWords clean).length
  · rw [if_pos h5] at h
    exact of_decide_eq_true (List.mem_filter.1 h).2
  · rw [if_neg h5] at h
    cases h

theorem keywordCandidates_mem_length (clean t : List Char)
    (h : t ∈ keywordCandidates clean) : 17 ≤ t.length := by
  unfold keywordCandidates at h
  simp only at h
  by_cases h3 : 3 ≤ ((claimWords clean).filter (fun w => 4 < w.length)).length
  · rw [if_pos h3] at h
    have ht : t = joinSpace
        (((claimWords clean).filter (fun w => 4 < w.length)).take 3) := by
      simpa using h
    obtain ⟨a, b, c, rest, hsig⟩ :
        ∃ a b c rest, (claimWords clean).filter (fun w => 4 < w.length) =
          a :: b :: c :: rest := by
      match hm : (claimWords clean).filter (fun w => 4 < w.length) with
      | [] => rw [hm] at h3; simp at h3
      | [a] => rw [hm] at h3; simp at h3
      | [a, b] => rw [hm] at h3; simp at h3
      | a :: b :: c :: rest => exact ⟨a, b, c, rest, hm⟩
    have ha : 4 < a.length :=
      of_decide_eq_true (List.mem_filter.1 (hsig ▸ by simp :
        a ∈ (claimWords clean).filter (fun w => 4 < w.length))).2
    have hb : 4 < b.length :=
      of_decide_eq_true (List.mem_filter.1 (hsig ▸ by simp :
        b ∈ (claimWords clean).filter (fun w => 4 < w.length))).2
    have hc : 4 < c.length :=
      of_decide_eq_true (List.mem_filter.1 (hsig ▸ by simp :
        c ∈ (claimWords clean).filter (fun w => 4 < w.length))).2
    rw [ht, hsig]
    simp only [List.take, joinSpace]
    simp [List.length_append]
    omega
  · rw [if_neg h3] at h
    cases h

theorem extract_mem_length (input t : List Char)
    (h : t ∈ extractSearchTargets input) : 10 < t.length := by
  unfold extractSearchTargets at h
  simp only [List.mem_append] at h
  rcases h with (h1 | h2) | h3
  · exact sentenceCandidates_mem_length _ t h1
  · have := phraseCandidates_mem_length _ t h2; omega
  · have := keywordCandidates_mem_length _ t h3; omega

theorem extract_nil_of_short (input : List Char)
    (h : (normalizeClaim input).length < 11) :
    extractSearchTargets input = [] := by
  have hwords : ∀ w ∈ claimWords (normalizeClaim input), 2 < w.length :=
    fun w hw => of_decide_eq_true (List.mem_filter.1 hw).2
  have hwsum : sumLens (claimWords (normalizeClaim input)) ≤
      (normalizeClaim input).length :=
    le_trans (sumLens_filter_le _ _) (sumLens_splitRuns_le _ _)
  have hwlen : (claimWords (normalizeClaim input)).length < 5 := by
    by_contra hge
    have h5 : 5 ≤ (claimWords (normalizeClaim input)).length := by omega
    have := sumLens_lower 3 (claimWords (normalizeClaim input))
      (fun w hw => by have := hwords w hw; omega)
    omega
  have hsent : sentenceCandidates (normalizeClaim input) = [] := by
    unfold sentenceCandidates
    have hfil : (splitRuns isSentencePunct (normalizeClaim input)).filter
        (fun s => 10 < (jsTrim s).length) = [] := by
      rw [List.filter_eq_nil_iff]
      intro s hs
      have h1 := mem_splitRuns_length_le isSentencePunct _ s hs
      have h2 := jsTrim_length_le s
      simp only [decide_eq_true_eq]
      omega
    rw [hfil]
    rfl
  have hphrase : phraseCandidates (normalizeClaim input) = [] := by
    unfold phraseCandidates
    simp only
    rw [if_neg (by omega)]
  have hkey : keywordCandidates (normalizeClaim input) = [] := by
    unfold keywordCandidates
    simp only
    rw [if_neg ?hne]
    case hne =>
      intro h3
      have hsig : ∀ w ∈ (claimWords (normalizeClaim input)).filter
          (fun w => 4 < w.length), 4 < w.length :=
        fun w hw => of_decide_eq_true (List.mem_filter.1 hw).2
      have hs1 := sumLens_lower 5
        ((claimWords (normalizeClaim input)).filter (fun w => 4 < w.length))
        (fun w hw => by have := hsig w hw; omega)
      have hs2 : sumLens ((claimWords (normalizeClaim input)).filter
          (fun w => 4 < w.length)) ≤
            sumLens (claimWords (normalizeClaim input)) :=
        sumLens_filter_le _ _
      omega
  unfold extractSearchTargets
  simp only
  rw [hsent, hphrase, hkey]
  rfl

theorem normalizeClaim_all_ws (s : List Char) (h : ∀ c ∈ s, isJsWs c = true) :
    normalizeClaim s = [] := by
  unfold normalizeClaim
  rw [jsTrim_eq_nil s h]
  rfl

/-- One-step unfolding of a `highlight` call on a string input. -/
theorem highlight_some_fst (s v : List Char) (st : EngineState) :
    (highlightAndNavigateToText (some s) v st).1 =
      (tryTargets v (clearHighlights st) (extractSearchTargets s)).1 := by
  rw [highlightAndNavigateToText]

/-- One-step unfolding of a `highlight` call's outcome on a string
input. -/
theorem highlight_some_snd (s v : List Char) (st : EngineState) :
    (highlightAndNavigateToText (some s) v st).2 =
      Except.ok (tryTargets v (clearHighlights st)
        (extractSearchTargets s)).2 := by
  rw [highlightAndNavigateToText]

/-- Field values of a cleared state. -/
theorem clearHighlights_doc (st : EngineState) :
    (clearHighlights st).doc = clearN st.doc := rfl

theorem clearHighlights_elements (st : EngineState) :
    (clearHighlights st).highlightedElements = [] := rfl

theorem clearHighlights_counter (st : EngineState) :
    (clearHighlights st).highlightCounter = 0 := rfl

theorem clearHighlights_button (st : EngineState) :
    (clearHighlights st).clearButton =
      st.clearButton.map (fun _ => false) := rfl

/-! ## The claims -/

/-- C1: the self-exclusion invariant fails in the code. The walker's filter
rejects only text under the element with id `safesearch-sidebar-root`
(part_000 line 118), but `injectSidebar` gives the injected UI root the id
`clarity-sidebar-root` (content.js line 50). Over a document whose only
text sits inside the injected sidebar root, a highlight call matches and
rewrites that text (a marker appears inside the engine's own UI), whereas
the same document with the id the filter expects is correctly excluded
(the call fails soft and the document is unchanged). -/
theorem C1_self_exclusion_bug :
    (highlightAndNavigateToText (some housingClaim) "suspicious".toList
      (sidebarState clarityRootId)).2 = Except.ok true ∧
    noMarksN (highlightAndNavigateToText (some housingClaim)
      "suspicious".toList (sidebarState clarityRootId)).1.doc = false ∧
    (highlightAndNavigateToText (some housingClaim) "suspicious".toList
      (sidebarState sbExcludeId)).2 = Except.ok false ∧
    (highlightAndNavigateToText (some housingClaim) "suspicious".toList
      (sidebarState sbExcludeId)).1.doc = sidebarDoc sbExcludeId ∧
    clarityRootId ≠ sbExcludeId :=
  ⟨rfl, rfl, rfl, rfl, by decide⟩

/-- C2 (counterexample): a failed new search does remove highlights created
by an earlier successful call, because `highlightAndNavigateToText` runs
`clearHighlights` unconditionally at entry (part_000 line 19). After a
successful call the session holds a marker; a subsequent call whose only
candidate is absent from the page reports no match, yet leaves the session
with no markers at all. -/
theorem C2_counterexample :
    afterFirstCall.highlightedElements ≠ [] ∧
    noMarksN afterFirstCall.doc = false ∧
    (highlightAndNavigateToText (some absentClaim) "verified".toList
      afterFirstCall).2 = Except.ok false ∧
    (highlightAndNavigateToText (some absentClaim) "verified".toList
      afterFirstCall).1.highlightedElements = [] ∧
    noMarksN (highlightAndNavigateToText (some absentClaim)
      "verified".toList afterFirstCall).1.doc = true :=
  ⟨by decide, rfl, rfl, rfl, rfl⟩

/-- C2 (amended): on total failure to find any match, no state transition
occurs beyond the unconditional entry clear — the end state is exactly the
state the entry `clearHighlights` produced; the failed search itself
mutates nothing. -/
theorem C2_no_transition_after_entry_clear (s v : List Char)
    (st : EngineState)
    (h : (highlightAndNavigateToText (some s) v st).2 = Except.ok false) :
    (highlightAndNavigateToText (some s) v st).1 = clearHighlights st := by
  rw [highlight_some_snd] at h
  rw [highlight_some_fst]
  have hf : (tryTargets v (clearHighlights st)
      (extractSearchTargets s)).2 = false := by
    simpa using h
  exact tryTargets_not_found v (clearHighlights st) _ hf

/-- Witness for C2: a concrete failing search leaves exactly the cleared
state. -/
theorem C2_witness :
    (highlightAndNavigateToText (some absentClaim) "verified".toList
      proseState).2 = Except.ok false ∧
    (highlightAndNavigateToText (some absentClaim) "verified".toList
      proseState).1 = clearHighlights proseState :=
  ⟨rfl, C2_no_transition_after_entry_clear absentClaim "verified".toList
    proseState rfl⟩

/-- C3: the round-trip claim matches the spec's own rewrite contract
(§4.3 mandates a lossless splice of text and marker nodes, and `clear`
un-wraps markers), but the code fails it: `highlightTextInNode`
interpolates the node's raw text unescaped into `tempDiv.innerHTML`
(part_000 lines 172-180), so a text node whose content contains
markup-significant characters is altered by the parse. Over a page whose
paragraph reads `see &amp; examples in this text`, highlight matches,
and the subsequent clear leaves `see & examples in this text` — not the
pre-highlight content — even though no marker remains. On markup-free
text (the prose page) the round trip does restore the text, showing the
splice intent everywhere else. -/
theorem C3_round_trip_bug :
    (highlightAndNavigateToText (some ampText) "verified".toList
      ampState).2 = Except.ok true ∧
    textContentN ampState.doc = ampText ∧
    textContentN (clearHighlights (highlightAndNavigateToText
      (some ampText) "verified".toList ampState).1).doc = ampCorrupted ∧
    ampCorrupted ≠ ampText ∧
    noMarksN (clearHighlights (highlightAndNavigateToText (some ampText)
      "verified".toList ampState).1).doc = true ∧
    textContentN (clearHighlights (highlightAndNavigateToText
      (some proseClaim) "verified".toList proseState).1).doc =
        textContentN proseState.doc :=
  ⟨rfl, rfl, rfl, by decide, rfl, rfl⟩

/-- C4 (counterexample): a non-string claim text is not treated as
NoCandidates — it reaches `claimText.trim()` inside `extractSearchTargets`
and raises an uncaught `TypeError` (modelled `Except.error ()`), after the
entry clear has already run. -/
theorem C4_counterexample :
    highlightAndNavigateToText none "verified".toList proseState =
      (clearHighlights proseState, Except.error ()) :=
  rfl

/-- C4 (amended): every empty or whitespace-only string input yields zero
candidates and the soft no-match outcome, with the end state exactly the
cleared state; the never-hard-fails guarantee holds for string inputs
only. -/
theorem C4_empty_input_soft (s v : List Char) (st : EngineState)
    (h : ∀ c ∈ s, isJsWs c = true) :
    extractSearchTargets s = [] ∧
    highlightAndNavigateToText (some s) v st =
      (clearHighlights st, Except.ok false) := by
  have hn : normalizeClaim s = [] := normalizeClaim_all_ws s h
  have he : extractSearchTargets s = [] :=
    extract_nil_of_short s (by rw [hn]; simp)
  refine ⟨he, ?_⟩
  have h1 : (highlightAndNavigateToText (some s) v st).1 =
      clearHighlights st := by
    rw [highlight_some_fst, he]
    rfl
  have h2 : (highlightAndNavigateToText (some s) v st).2 =
      Except.ok false := by
    rw [highlight_some_snd, he]
    rfl
  exact Prod.ext h1 h2

/-- Witness for C4: the empty-ish input `"  "`. -/
theorem C4_witness :
    (∀ c ∈ ("  ".toList : List Char), isJsWs c = true) ∧
    extractSearchTargets "  ".toList = [] ∧
    highlightAndNavigateToText (some "  ".toList) "verified".toList
      proseState = (clearHighlights proseState, Except.ok false) :=
  ⟨by decide, (C4_empty_input_soft "  ".toList "verified".toList proseState
      (by decide)).1,
    (C4_empty_input_soft "  ".toList "verified".toList proseState
      (by decide)).2⟩

/-- C5: at-most-one-match. First, the candidate loop stops at the first
candidate for which the search reports a match — later candidates are
never tried. Second, over a document containing the search text in three
different nodes, only the first node (in document order) undergoes
match-and-mark; the other two text nodes are returned verbatim and
scanning stops. -/
theorem C5_at_most_one_match :
    (∀ (v t : List Char) (st : EngineState) (ts : List (List Char)),
      (findAndHighlightText t v st.highlightCounter st.doc).2.2.2 = true →
      tryTargets v st (t :: ts) =
        ({ st with
            doc := (findAndHighlightText t v st.highlightCounter st.doc).1
            highlightCounter :=
              (findAndHighlightText t v st.highlightCounter st.doc).2.1
            highlightedElements := st.highlightedElements ++
              (findAndHighlightText t v st.highlightCounter
                st.doc).2.2.1 }, true)) ∧
    (∀ (pat v : List Char) (cnt : Nat) (s1 s2 s3 : List Char),
      10 ≤ pat.length → containsCI pat s1 = true →
      containsCI pat s2 = true → containsCI pat s3 = true →
      findAndHighlightText pat v cnt (threeNodeDoc s1 s2 s3) =
        (DN.elem "body".toList [] [] none none
          (DN.elem "p".toList [] [] none none
            (highlightTextInNode pat v cnt s1 DN.nil).1
            (DN.elem "p".toList [] [] none none (DN.text s2 DN.nil)
              (DN.elem "p".toList [] [] none none (DN.text s3 DN.nil)
                DN.nil))) DN.nil,
         (highlightTextInNode pat v cnt s1 DN.nil).2.1,
         (highlightTextInNode pat v cnt s1 DN.nil).2.2, true)) := by
  constructor
  · intro v t st ts h
    simp only [tryTargets]
    rw [if_pos h]
  · intro pat v cnt s1 s2 s3 h10 h1 h2 h3
    have hacc : acceptText "p".toList false = true := by decide
    have hsb : (decide (([] : List Char) = sbExcludeId)) = false := by decide
    unfold findAndHighlightText
    rw [if_neg (by omega)]
    simp only [threeNodeDoc, fahtN, hsb, hacc, h1, Bool.or_false,
      Bool.false_or, Bool.and_self, if_true]

/-- Witness for C5: concrete instances of both parts. -/
theorem C5_witness :
    (tryTargets "verified".toList proseState [proseClaim]).2 = true ∧
    (findAndHighlightText "across the region".toList "verified".toList 0
      (threeNodeDoc housingSentence housingSentence
        housingSentence)).2.2.2 = true := by
  constructor
  · rw [C5_at_most_one_match.1 "verified".toList proseClaim proseState []
      rfl]
  · rw [C5_at_most_one_match.2 "across the region".toList
      "verified".toList 0 housingSentence housingSentence housingSentence
      (by decide) (by decide) (by decide) (by decide)]

/-- C6: the match-and-mark claim's "marker wraps the exact matched
substring with its original casing" is the evident intent (the `replace`
callback wraps `match` itself), but the code fails it: the matched run
is interpolated unescaped into `tempDiv.innerHTML` (part_000 lines
172-180), so a run containing markup-significant characters is altered
by the parse. For the node text `alpha &amp; beta gamma` and candidate
`&amp; beta`, the exact matched substring is `&amp; beta`, yet the
created marker wraps `& beta` and the node's text content changes. On
markup-free input the rewrite equals the intended lossless splice
exactly (matched run wrapped verbatim, original casing, verdict and
counter-derived id attributes), and escaping then reading the pattern
back always yields the literal candidate. -/
theorem C6_match_and_mark_bug :
    containsCI c6Pat c6Text = true ∧
    (highlightTextInNode c6Pat "verified".toList 0 c6Text DN.nil).2.2 =
      [⟨"safesearch-highlight-verified".toList, some "verified".toList,
        some "1".toList, "& beta".toList⟩] ∧
    "& beta".toList ≠ c6Pat ∧
    lcs "& beta".toList ≠ lcs c6Pat ∧
    textContentN (highlightTextInNode c6Pat "verified".toList 0 c6Text
      DN.nil).1 = "alpha & beta gamma".toList ∧
    "alpha & beta gamma".toList ≠ c6Text ∧
    highlightTextInNode "needle one".toList "verified".toList 0
      "hay NEEDLE ONE stack".toList DN.nil =
      renderPieces "verified".toList 0 DN.nil
        (splitOccur "needle one".toList "hay NEEDLE ONE stack".toList) ∧
    (∀ p : List Char, regexLiteral (escapeRegExp p) = some p) :=
  ⟨rfl, rfl, by decide, by decide, rfl, by decide, rfl,
    regexLiteral_escape⟩

/-- C7: extraction output is the concatenation of the trimmed long
sentence segments, then the 5-token window phrases, then the last-resort
keyword candidate; and on the spec's quoted example input the first
candidate is the sentence with the quotes and trailing period
stripped. -/
theorem C7_extraction_order :
    (∀ input : List Char, extractSearchTargets input =
      sentenceCandidates (normalizeClaim input) ++
        phraseCandidates (normalizeClaim input) ++
        keywordCandidates (normalizeClaim input)) ∧
    (extractSearchTargets housingInput).head? = some housingSentence :=
  ⟨fun _ => rfl, rfl⟩

/-- C8: every emitted candidate has length strictly greater than 10; the
last-resort keyword candidate has length at least 17; hence no emitted
candidate is dropped by the search step's `length < 10` defensive
floor. -/
theorem C8_candidate_length :
    (∀ input t, t ∈ extractSearchTargets input → 10 < t.length) ∧
    (∀ clean t, t ∈ keywordCandidates clean → 17 ≤ t.length) ∧
    (∀ input t, t ∈ extractSearchTargets input → ¬(t.length < 10)) :=
  ⟨extract_mem_length, keywordCandidates_mem_length,
    fun input t h => by have := extract_mem_length input t h; omega⟩

/-- Witness for C8: the housing example's candidates. -/
theorem C8_witness :
    10 < housingSentence.length ∧
    17 ≤ ("Housing prices sharply".toList : List Char).length :=
  ⟨C8_candidate_length.1 housingInput housingSentence (by decide),
    C8_candidate_length.2.1 (normalizeClaim housingInput)
      "Housing prices sharply".toList (by decide)⟩

/-- C9: every input whose normalized form is shorter than 11 characters
(including empty and whitespace-only input) yields the empty candidate
list. -/
theorem C9_short_input_empty (input : List Char)
    (h : (normalizeClaim input).length < 11) :
    extractSearchTargets input = [] :=
  extract_nil_of_short input h

/-- Witness for C9. -/
theorem C9_witness :
    (normalizeClaim "short.".toList).length < 11 ∧
    extractSearchTargets "short.".toList = [] :=
  ⟨by decide, C9_short_input_empty "short.".toList (by decide)⟩

/-- C10: `clear` is idempotent — clearing twice gives the same end state
as clearing once — and clearing when already Idle only hides the
clear-button affordance (itself safe when the button is hidden or
absent). -/
theorem C10_clear_idempotent :
    (∀ st : EngineState, clearHighlights (clearHighlights st) =
      clearHighlights st) ∧
    (∀ st : EngineState, noMarksN st.doc = true →
      st.highlightedElements = [] → st.highlightCounter = 0 →
      clearHighlights st =
        { st with clearButton := st.clearButton.map (fun _ => false) }) := by
  refine ⟨clearHighlights_idem, ?_⟩
  intro st h1 h2 h3
  unfold clearHighlights
  rw [clearN_id_of_noMarks st.doc h1, ← h2, ← h3]

/-- Witness for C10: clearing a fresh, markerless state. -/
theorem C10_witness :
    noMarksN proseState.doc = true ∧
    clearHighlights proseState =
      { proseState with
          clearButton := proseState.clearButton.map (fun _ => false) } :=
  ⟨rfl, C10_clear_idempotent.2 proseState rfl rfl rfl⟩

end Clarity
